import Mathlib

/-!
Verification of the backup archiver (`src/main.c`, `backup_with_minizip_split.c`).

Shallow embedding conventions:
* Wide strings (`wchar_t *`) are `List Char` (`WStr`); the NUL terminator is
  implicit in the list's end.
* The filesystem seen by `FindFirstFileW`/`FindNextFileW` is a finite forest
  (`FSForest`): the enumeration of one directory is a sequence of children,
  each carrying its name, its hidden/system attribute bits, and — for
  directories — the enumeration of its own children.
* External services (shortcut resolution, write-time `GetFileAttributesW`,
  archive open success) are oracles bundled in `Env`.
* The minizip-ng archive backend is a black box; what the program hands it
  (entry add calls, open/close) is recorded in `ZipResult`.
-/

namespace Backup

/-- A wide string (`wchar_t *`), as the list of its characters. -/
abbrev WStr := List Char

/-- The Windows path separator used throughout `main.c` (`L'\\'`). -/
def bslash : Char := '\\'

/-- `L"."`, the current-directory pseudo-entry skipped by `collect_entries`. -/
def dot_name : WStr := ['.']

/-- `L".."`, the parent-directory pseudo-entry skipped by `collect_entries`. -/
def dotdot_name : WStr := ['.', '.']

/-- `L"desktop.ini"`, excluded case-insensitively at both stages. -/
def desktop_ini : WStr := "desktop.ini".data

/-- ASCII lowercasing of one character, modelling `towlower` as used by
`_wcsicmp` on the names that matter here (the reserved name is ASCII). -/
def ascii_lower (c : Char) : Char :=
  if 'A' ≤ c ∧ c ≤ 'Z' then Char.ofNat (c.toNat + 32) else c

/-- Case-insensitive string equality, modelling `_wcsicmp(a, b) == 0`. -/
def icase_eq (a b : WStr) : Bool :=
  decide (a.map ascii_lower = b.map ascii_lower)

/-- The attribute bits of one filesystem object that `main.c` inspects:
`FILE_ATTRIBUTE_HIDDEN`, `FILE_ATTRIBUTE_SYSTEM`, `FILE_ATTRIBUTE_DIRECTORY`. -/
structure Attrs where
  hid : Bool
  sys : Bool
  dir : Bool
deriving DecidableEq

/-- A directory enumeration as `FindFirstFileW`/`FindNextFileW` report it:
a sequence of named children; directory children carry their own enumeration.
`nil` is also how a failed listing appears (the collector then contributes
nothing for that directory). -/
inductive FSForest : Type where
  | nil : FSForest
  | fileCons (name : WStr) (hid sys : Bool) (rest : FSForest) : FSForest
  | dirCons (name : WStr) (hid sys : Bool) (children rest : FSForest) : FSForest
deriving DecidableEq

/-- `struct FileEntry`: absolute source path and in-archive relative path. -/
structure FileEntry where
  full : WStr
  rel : WStr
deriving DecidableEq

/-- `wsprintfW(buf, L"%s\\%s", d, n)`: join a directory path and a name. -/
def join1 (d n : WStr) : WStr := d ++ bslash :: n

/-- The relative-path computation of `collect_entries` (main.c:74-79):
if `full` starts with `base` and the character right after that prefix is a
backslash, strip `base` plus the separator; otherwise fall back to the bare
file name. -/
def rel_part (base full name : WStr) : WStr :=
  if full.take base.length = base ∧ full[base.length]? = some bslash then
    full.drop (base.length + 1)
  else name

/-- The PathFilter of the spec, read off the three serial `continue` checks of
`collect_entries` (main.c:62-70), in order, first match excluding:
name `.` or `..`; hidden or system attribute; name `desktop.ini`
(case-insensitive). -/
def path_filter_include (name : WStr) (a : Attrs) : Bool :=
  if name = dot_name ∨ name = dotdot_name then false
  else if a.hid || a.sys then false
  else if icase_eq name desktop_ini then false
  else true

/-- `collect_entries` (main.c:53-92) over a directory enumeration: skip `.`
and `..`, hidden/system children and `desktop.ini`; for every other child
record a `FileEntry` (directories included), then recurse into directory
children with the same `base`. -/
def collect_entries (base curr : WStr) : FSForest → List FileEntry
  | .nil => []
  | .fileCons name hid sys rest =>
    if name = dot_name ∨ name = dotdot_name then collect_entries base curr rest
    else if hid || sys then collect_entries base curr rest
    else if icase_eq name desktop_ini then collect_entries base curr rest
    else
      ⟨join1 curr name, rel_part base (join1 curr name) name⟩ ::
        collect_entries base curr rest
  | .dirCons name hid sys children rest =>
    if name = dot_name ∨ name = dotdot_name then collect_entries base curr rest
    else if hid || sys then collect_entries base curr rest
    else if icase_eq name desktop_ini then collect_entries base curr rest
    else
      ⟨join1 curr name, rel_part base (join1 curr name) name⟩ ::
        (collect_entries base (join1 curr name) children ++
          collect_entries base curr rest)

/-- Every object of a forest with its full path and its attribute bits, as
the static filesystem that both the walk and the write-time re-check see. -/
def forest_attrs (curr : WStr) : FSForest → List (WStr × Attrs)
  | .nil => []
  | .fileCons name hid sys rest =>
    (join1 curr name, ⟨hid, sys, false⟩) :: forest_attrs curr rest
  | .dirCons name hid sys children rest =>
    (join1 curr name, ⟨hid, sys, true⟩) ::
      (forest_attrs (join1 curr name) children ++ forest_attrs curr rest)

/-- A legal Windows file name component: non-empty and free of the reserved
characters `\\`, `/`, `:` (which `FindFirstFileW` can never report inside
`cFileName`). -/
def valid_name (n : WStr) : Bool :=
  !n.isEmpty && n.all fun c => !(c = bslash || c = '/' || c = ':')

/-- All names of a forest are legal Windows name components. -/
def valid_names : FSForest → Bool
  | .nil => true
  | .fileCons name _ _ rest => valid_name name && valid_names rest
  | .dirCons name _ _ children rest =>
    valid_name name && valid_names children && valid_names rest

/-- `wcsrchr(full, L'\\')` and the step past it (main.c:128-129): the portion
of a path after its last backslash, `none` when the path has no backslash. -/
def last_basename (full : WStr) : Option WStr :=
  if bslash ∈ full then some ((full.reverse.takeWhile fun c => c ≠ bslash).reverse)
  else none

/-- The write-time hidden/system test on a `GetFileAttributesW` answer
(main.c:122-125). A failed query (`INVALID_FILE_ATTRIBUTES`, all bits set,
modelled as `none`) also trips the test, so vanished files are skipped. -/
def attr_hidden_sys : Option Attrs → Bool
  | none => true
  | some a => a.hid || a.sys

/-- The write-time directory test (main.c:137); `INVALID_FILE_ATTRIBUTES`
has the directory bit set as well. -/
def attr_dir : Option Attrs → Bool
  | none => true
  | some a => a.dir

/-- The write-time `desktop.ini` check of `zip_entries` (main.c:127-131):
applied to the basename after the last backslash, skipped entirely when the
path contains no backslash. -/
def zip_name_skip (full : WStr) : Bool :=
  match last_basename full with
  | some f => icase_eq f desktop_ini
  | none => false

/-- An entry survives both write-time `continue`s of `zip_entries` and gets
its progress line printed. -/
def zip_keep (attrOf : WStr → Option Attrs) (e : FileEntry) : Bool :=
  !attr_hidden_sys (attrOf e.full) && !zip_name_skip e.full

/-- An entry is actually handed to `mz_zip_writer_add_file` (main.c:137-139):
it survives the write-time filter and is not a directory. -/
def zip_add (attrOf : WStr → Option Attrs) (e : FileEntry) : Bool :=
  zip_keep attrOf e && !attr_dir (attrOf e.full)

/-- Everything observable from one `zip_entries` call: whether the archive
opened, the progress lines `(percentage, rel)` in order, the adds passed to
the backend `(full, rel)` in order, the final `Done: %d items` line, and
whether the writer was closed (the archive finalized). -/
structure ZipResult where
  opened : Bool
  progress : List (Nat × WStr)
  added : List (WStr × WStr)
  summary : Option (Nat × WStr)
  finalized : Bool
deriving DecidableEq

/-- The `for` loop of `zip_entries` (main.c:121-140) over the indexed
entries: per entry, re-check hidden/system and `desktop.ini`, then print
`(i * 100) / count` and, for non-directories, add the file. -/
def zip_loop (attrOf : WStr → Option Attrs) (total : Nat) :
    List (Nat × FileEntry) → List (Nat × WStr) × List (WStr × WStr)
  | [] => ([], [])
  | (i, e) :: rest =>
    let r := zip_loop attrOf total rest
    if attr_hidden_sys (attrOf e.full) then r
    else if zip_name_skip e.full then r
    else
      ((i * 100 / total, e.rel) :: r.1,
        if attr_dir (attrOf e.full) then r.2 else (e.full, e.rel) :: r.2)

/-- `zip_entries` (main.c:112-144): on open failure print the error and bail
out with nothing written; otherwise run the loop, print the summary with the
raw `count`, and close (finalize) the archive. -/
def zip_entries (openOk : Bool) (attrOf : WStr → Option Attrs)
    (zipPath : WStr) (entries : List FileEntry) : ZipResult :=
  if openOk then
    let r := zip_loop attrOf entries.length entries.enum
    ⟨true, r.1, r.2, some (entries.length, zipPath), true⟩
  else ⟨false, [], [], none, false⟩

/-- `wcsrchr(link_name, L'.')` followed by `*dot = L'\0'` (main.c:181, 201):
truncate at the last dot; a dotless name is left unchanged. -/
def strip_last_ext (f : WStr) : WStr :=
  if '.' ∈ f then ((f.reverse.dropWhile fun c => c ≠ '.').drop 1).reverse
  else f

/-- `const wchar_t suf[] = L" - Ярлык"` (main.c:182, 202): the localized
shortcut suffix the program strips. -/
def localized_suffix : WStr := " - Ярлык".data

/-- Display-name derivation (main.c:180-183, 200-203): strip the final
extension, then strip `localized_suffix` when the remaining name is strictly
longer than the suffix and ends with it. -/
def derive_display_name (fname : WStr) : WStr :=
  let b := strip_last_ext fname
  if localized_suffix.length < b.length ∧
      b.drop (b.length - localized_suffix.length) = localized_suffix then
    b.take (b.length - localized_suffix.length)
  else b

/-- The run's external surroundings, fixed for one invocation: the `*.lnk`
enumeration of the source folder in `FindFirstFileW` order (empty models
`INVALID_HANDLE_VALUE`), the COM shortcut resolver (`resolve_link`,
main.c:95-109, `none` on failure), the enumeration each resolved target
directory yields, the write-time `GetFileAttributesW` oracle, per-path
`mz_zip_writer_open_file` success, and `CreateDirectoryW` success (counting
`ERROR_ALREADY_EXISTS` as success, main.c:164). -/
structure Env where
  lnkFiles : List WStr
  resolve : WStr → Option WStr
  forestOf : WStr → FSForest
  attrOf : WStr → Option Attrs
  openOk : WStr → Bool
  mkdirOk : Bool

/-- `L".zip"`, appended to the display name in split mode (main.c:186). -/
def zip_ext : WStr := ".zip".data

/-- One split-mode unit of work: the archive path, the entries collected for
it, and what its `zip_entries` call did. -/
structure SplitJob where
  zipPath : WStr
  entries : List FileEntry
  result : ZipResult
deriving DecidableEq

/-- The split-mode loop body for one resolved shortcut (main.c:178-188):
derive the display name from the link's file name, collect the target tree
with the target as its own base, and write `<output>\<name>.zip`. -/
def job_for (env : Env) (out fname tgt : WStr) : SplitJob :=
  let nm := derive_display_name fname
  let es := collect_entries tgt tgt (env.forestOf tgt)
  let zp := join1 out nm ++ zip_ext
  ⟨zp, es, zip_entries (env.openOk zp) env.attrOf zp es⟩

/-- The split-mode `do`/`while` loop (main.c:177-189): per `*.lnk` file in
enumeration order, resolve it — `continue` on failure — and run `job_for`. -/
def split_jobs (env : Env) (src out : WStr) : List SplitJob :=
  env.lnkFiles.filterMap fun f =>
    match env.resolve (join1 src f) with
    | none => none
    | some tgt => some (job_for env out f tgt)

/-- The single-mode archive-path rewrite (main.c:209):
`wsprintfW(rel, L"%s\\%s", link_name, temp[j].rel)`. -/
def prefixed (nm : WStr) (e : FileEntry) : FileEntry := ⟨e.full, join1 nm e.rel⟩

/-- The single-mode merge loop (main.c:196-215): per `*.lnk` file, resolve it
— skip on failure — collect its target tree, and append every entry with the
display name prefixed onto its relative path. -/
def single_entries (env : Env) (src : WStr) : List FileEntry :=
  env.lnkFiles.flatMap fun f =>
    match env.resolve (join1 src f) with
    | none => []
    | some tgt =>
      (collect_entries tgt tgt (env.forestOf tgt)).map
        (prefixed (derive_display_name f))

/-- What one whole run leaves behind: the process exit code, the single-mode
archive result if that branch wrote one, and the split-mode jobs. -/
structure RunResult where
  exitCode : Nat
  singleResult : Option ZipResult
  splitResults : List SplitJob

/-- `L"--split"`. -/
def split_flag : WStr := "--split".data

/-- `argc > 1 && wcscmp(argv[1], L"--split") == 0` (main.c:150). -/
def is_split_invocation : List WStr → Bool
  | _ :: a :: _ => decide (a = split_flag)
  | _ => false

/-- `wmain` (main.c:146-221). Usage check, then either branch. Split mode:
directory creation failure or an empty `*.lnk` enumeration exit with 1,
otherwise the jobs run and the process exits 0. Single mode: an empty merged
entry list exits with 1 (`No files to archive.`), otherwise `zip_entries`
runs once on the output file and the process exits 0 — also when that open
failed. -/
def wmain (env : Env) (argv : List WStr) : RunResult :=
  let sp := is_split_invocation argv
  if (sp = false ∧ argv.length ≠ 3) ∨ (sp = true ∧ argv.length ≠ 4) then
    ⟨1, none, []⟩
  else
    let src := (argv.drop (if sp then 2 else 1)).headD []
    let out := (argv.drop (if sp then 3 else 2)).headD []
    if sp then
      if env.mkdirOk = false then ⟨1, none, []⟩
      else if env.lnkFiles = [] then ⟨1, none, []⟩
      else ⟨0, none, split_jobs env src out⟩
    else
      let es := single_entries env src
      if es = [] then ⟨1, none, []⟩
      else ⟨0, some (zip_entries (env.openOk out) env.attrOf out es), []⟩

/-- Modelled from the spec: the archive backend (minizip-ng, out of scope as
a black box) truncates any existing file on open, so when several jobs share
an output path the one written last determines the file that survives. -/
def final_archive_at (jobs : List SplitJob) (p : WStr) : Option ZipResult :=
  ((jobs.filter fun j => j.zipPath = p).getLast?).map (·.result)

/-- The distinct archive file paths a job list touches. -/
def produced_paths (jobs : List SplitJob) : List WStr :=
  (jobs.map (·.zipPath)).dedup

/-- Modelled from the spec: the archive backend stores entry names with the
separators normalized to forward slashes, so the in-archive name of an entry
is its `rel` with every backslash mapped to `/`. -/
def to_archive_name (r : WStr) : WStr :=
  r.map fun c => if c = bslash then '/' else c

/-- The spec's words for the written entry set (§8): the non-excluded regular
files of the walked tree, each under its path relative to the resolved
target — excluded directories are not descended into, and directories
themselves are never listed. Compared against what
`zip_entries ∘ collect_entries` actually writes. -/
def regular_rel_paths (base curr : WStr) : FSForest → List WStr
  | .nil => []
  | .fileCons name hid sys rest =>
    if path_filter_include name ⟨hid, sys, false⟩ then
      rel_part base (join1 curr name) name :: regular_rel_paths base curr rest
    else regular_rel_paths base curr rest
  | .dirCons name hid sys children rest =>
    if path_filter_include name ⟨hid, sys, true⟩ then
      regular_rel_paths base (join1 curr name) children ++
        regular_rel_paths base curr rest
    else regular_rel_paths base curr rest

/-- A well-formed relative archive path: no drive-letter colon, no forward
slash, non-empty, and no leading backslash. -/
def good_rel (r : WStr) : Prop :=
  ':' ∉ r ∧ '/' ∉ r ∧ r ≠ [] ∧ r.head? ≠ some bslash

/-- The shape `collect_entries` is called with: the current directory is the
base itself or the base extended by a well-formed relative path. -/
def good_curr (base curr : WStr) : Prop :=
  curr = base ∨ ∃ r, good_rel r ∧ curr = base ++ bslash :: r

/-- Example target tree: one visible directory `d` holding one file `f`. -/
def ex_forest : FSForest :=
  .dirCons "d".data false false (.fileCons "f".data false false .nil) .nil

/-- Example resolved target directory. -/
def ex_base : WStr := "T".data

/-- The write-time attribute oracle agreeing with `ex_forest`. -/
def ex_attr : WStr → Option Attrs :=
  fun p => (forest_attrs ex_base ex_forest).lookup p

/-- The entries the collector reports for `ex_forest`. -/
def ex_entries : List FileEntry := collect_entries ex_base ex_base ex_forest

/-- Example source folder path. -/
def ex_src : WStr := "S".data

/-- Example output archive path. -/
def ex_out : WStr := "o.zip".data

/-- A shortcut file named exactly `.lnk` (matched by the `*.lnk` pattern):
stripping its extension leaves an empty display name. -/
def lnk_dot_only : WStr := ".lnk".data

/-- An environment whose source folder holds only the `.lnk` shortcut,
resolving to a directory with one visible file. -/
def env_dotlnk : Env where
  lnkFiles := [lnk_dot_only]
  resolve := fun p => if p = join1 ex_src lnk_dot_only then some "D".data else none
  forestOf := fun _ => .fileCons "x.txt".data false false .nil
  attrOf := fun _ => none
  openOk := fun _ => true
  mkdirOk := true

/-- Shortcut file `A.lnk`. -/
def lnkA : WStr := "A.lnk".data

/-- Shortcut file `B.lnk`. -/
def lnkB : WStr := "B.lnk".data

/-- Target directory of `A.lnk`. -/
def dirA : WStr := "dirA".data

/-- Target directory of `B.lnk`. -/
def dirB : WStr := "dirB".data

/-- Resolver sending `A.lnk` to `dirA` and `B.lnk` to `dirB`. -/
def res_ab : WStr → Option WStr := fun p =>
  if p = join1 ex_src lnkA then some dirA
  else if p = join1 ex_src lnkB then some dirB
  else none

/-- `dirA` holds `x.txt`, `dirB` holds `y.txt`. -/
def forest_ab : WStr → FSForest := fun d =>
  if d = dirA then .fileCons "x.txt".data false false .nil
  else if d = dirB then .fileCons "y.txt".data false false .nil
  else .nil

/-- Write-time attributes agreeing with both target trees. -/
def attr_ab : WStr → Option Attrs := fun p =>
  (forest_attrs dirA (forest_ab dirA) ++ forest_attrs dirB (forest_ab dirB)).lookup p

/-- Two-shortcut environment, `A.lnk` enumerated first. -/
def env_ab : Env :=
  ⟨[lnkA, lnkB], res_ab, forest_ab, attr_ab, fun _ => true, true⟩

/-- The same environment with the enumeration order swapped. -/
def env_ba : Env := { env_ab with lnkFiles := [lnkB, lnkA] }

/-- Environment in which opening any output archive fails. -/
def env_openfail : Env := { env_ab with lnkFiles := [lnkA], openOk := fun _ => false }

/-- A single-archive-mode command line (`argc = 3`). -/
def argv_single : List WStr := ["prog".data, ex_src, ex_out]

/-- Shortcut file `A - Ярлык.lnk`, whose display name collides with the one
derived from `A.lnk`. -/
def lnkA2 : WStr := "A - Ярлык.lnk".data

/-- Two distinct shortcuts whose derived display names are both `A`. -/
def env_dup : Env where
  lnkFiles := [lnkA, lnkA2]
  resolve := fun p =>
    if p = join1 ex_src lnkA then some dirA
    else if p = join1 ex_src lnkA2 then some dirB
    else none
  forestOf := forest_ab
  attrOf := attr_ab
  openOk := fun _ => true
  mkdirOk := true

/-- An `Env` with the `*.lnk` enumeration replaced and everything else kept. -/
def with_lnks (env : Env) (ls : List WStr) : Env := { env with lnkFiles := ls }

theorem takeWhile_append_stop {α : Type} (p : α → Bool) (l₁ : List α) (y : α)
    (l₂ : List α) (h₁ : ∀ x ∈ l₁, p x = true) (hy : p y = false) :
    (l₁ ++ y :: l₂).takeWhile p = l₁ := by
  induction l₁ with
  | nil => simp [List.takeWhile_cons, hy]
  | cons a l ih =>
    have ha := h₁ a (by simp)
    simp only [List.cons_append, List.takeWhile_cons, ha, if_true]
    rw [ih fun x hx => h₁ x (by simp [hx])]

theorem dropWhile_append_stop {α : Type} (p : α → Bool) (l₁ : List α) (y : α)
    (l₂ : List α) (h₁ : ∀ x ∈ l₁, p x = true) (hy : p y = false) :
    (l₁ ++ y :: l₂).dropWhile p = y :: l₂ := by
  induction l₁ with
  | nil => simp [List.dropWhile_cons, hy]
  | cons a l ih =>
    have ha := h₁ a (by simp)
    simp only [List.cons_append, List.dropWhile_cons, ha, if_true]
    exact ih fun x hx => h₁ x (by simp [hx])

theorem last_basename_join (d n : WStr) (hn : bslash ∉ n) :
    last_basename (join1 d n) = some n := by
  have hmem : bslash ∈ join1 d n := by simp [join1]
  have hrev : (join1 d n).reverse = n.reverse ++ bslash :: d.reverse := by
    simp [join1]
  rw [last_basename, if_pos hmem, hrev,
    takeWhile_append_stop _ _ _ _
      (fun x hx => by
        simp only [decide_eq_true_eq]
        exact fun h => hn (h ▸ List.mem_reverse.mp hx))
      (by simp)]
  simp

theorem rel_part_strip (base tail name : WStr) :
    rel_part base (base ++ bslash :: tail) name = tail := by
  rw [rel_part, if_pos]
  · have h : base ++ bslash :: tail = (base ++ [bslash]) ++ tail := by simp
    rw [h, List.drop_left' (by simp)]
  · exact ⟨List.take_left _ _, by
      rw [List.getElem?_append_right (Nat.le_refl _)]; simp⟩

theorem strip_last_ext_concat (pre post : WStr) (hpost : '.' ∉ post) :
    strip_last_ext (pre ++ '.' :: post) = pre := by
  have hmem : '.' ∈ pre ++ '.' :: post := by simp
  have hrev : (pre ++ '.' :: post).reverse = post.reverse ++ '.' :: pre.reverse := by
    simp
  rw [strip_last_ext, if_pos hmem, hrev,
    dropWhile_append_stop _ _ _ _
      (fun x hx => by
        simp only [decide_eq_true_eq]
        exact fun h => hpost (h ▸ List.mem_reverse.mp hx))
      (by simp)]
  simp

theorem strip_last_ext_front (f : WStr) : strip_last_ext f <+: f := by
  rw [strip_last_ext]
  split
  · conv_rhs => rw [← List.reverse_reverse f]
    exact List.reverse_prefix.mpr
      ((List.drop_suffix 1 _).trans (List.dropWhile_suffix _))
  · exact List.prefix_refl f

theorem derive_display_name_front (f : WStr) : derive_display_name f <+: f := by
  rw [derive_display_name]
  split
  · exact (List.take_prefix _ _).trans (strip_last_ext_front f)
  · exact strip_last_ext_front f

theorem mem_of_mem_derive {c : Char} {f : WStr} (h : c ∈ derive_display_name f) :
    c ∈ f :=
  (derive_display_name_front f).subset h

theorem path_filter_include_iff (name : WStr) (a : Attrs) :
    path_filter_include name a = true ↔
      ¬(name = dot_name ∨ name = dotdot_name) ∧ (a.hid || a.sys) = false ∧
        icase_eq name desktop_ini = false := by
  rw [path_filter_include]
  by_cases h1 : name = dot_name ∨ name = dotdot_name
  · simp [h1]
  · by_cases h2 : (a.hid || a.sys) = true
    · simp [h1, h2]
    · by_cases h3 : icase_eq name desktop_ini = true
      · simp [h1, h2, h3]
      · simp [h1, h2, h3, Bool.eq_false_iff.mpr h2, Bool.eq_false_iff.mpr h3]

theorem collect_entries_fileCons (base curr name : WStr) (hid sys : Bool)
    (rest : FSForest) :
    collect_entries base curr (.fileCons name hid sys rest) =
      if path_filter_include name ⟨hid, sys, false⟩ then
        ⟨join1 curr name, rel_part base (join1 curr name) name⟩ ::
          collect_entries base curr rest
      else collect_entries base curr rest := by
  by_cases h1 : name = dot_name ∨ name = dotdot_name
  · simp [collect_entries, path_filter_include, h1]
  · by_cases h2 : (hid || sys) = true
    · simp [collect_entries, path_filter_include, h1, h2]
    · by_cases h3 : icase_eq name desktop_ini = true
      · simp [collect_entries, path_filter_include, h1, h2, h3]
      · simp [collect_entries, path_filter_include, h1, h2, h3]

theorem collect_entries_dirCons (base curr name : WStr) (hid sys : Bool)
    (children rest : FSForest) :
    collect_entries base curr (.dirCons name hid sys children rest) =
      if path_filter_include name ⟨hid, sys, true⟩ then
        ⟨join1 curr name, rel_part base (join1 curr name) name⟩ ::
          (collect_entries base (join1 curr name) children ++
            collect_entries base curr rest)
      else collect_entries base curr rest := by
  by_cases h1 : name = dot_name ∨ name = dotdot_name
  · simp [collect_entries, path_filter_include, h1]
  · by_cases h2 : (hid || sys) = true
    · simp [collect_entries, path_filter_include, h1, h2]
    · by_cases h3 : icase_eq name desktop_ini = true
      · simp [collect_entries, path_filter_include, h1, h2, h3]
      · simp [collect_entries, path_filter_include, h1, h2, h3]

theorem zip_loop_fst (attrOf : WStr → Option Attrs) (total : Nat)
    (l : List (Nat × FileEntry)) :
    (zip_loop attrOf total l).1 =
      (l.filter fun p => zip_keep attrOf p.2).map
        fun p => (p.1 * 100 / total, p.2.rel) := by
  induction l with
  | nil => rfl
  | cons p rest ih =>
    obtain ⟨i, e⟩ := p
    by_cases h1 : attr_hidden_sys (attrOf e.full) = true
    · simp [zip_loop, h1, zip_keep, List.filter_cons, ih]
    · by_cases h2 : zip_name_skip e.full = true
      · simp [zip_loop, h1, h2, zip_keep, List.filter_cons, ih]
      · simp [zip_loop, h1, h2, zip_keep, List.filter_cons, ih]

theorem zip_loop_snd (attrOf : WStr → Option Attrs) (total : Nat)
    (l : List (Nat × FileEntry)) :
    (zip_loop attrOf total l).2 =
      (l.filter fun p => zip_add attrOf p.2).map
        fun p => (p.2.full, p.2.rel) := by
  induction l with
  | nil => rfl
  | cons p rest ih =>
    obtain ⟨i, e⟩ := p
    by_cases h1 : attr_hidden_sys (attrOf e.full) = true
    · simp [zip_loop, h1, zip_keep, zip_add, List.filter_cons, ih]
    · by_cases h2 : zip_name_skip e.full = true
      · simp [zip_loop, h1, h2, zip_keep, zip_add, List.filter_cons, ih]
      · by_cases h3 : attr_dir (attrOf e.full) = true
        · simp [zip_loop, h1, h2, h3, zip_keep, zip_add, List.filter_cons, ih]
        · simp [zip_loop, h1, h2, h3, zip_keep, zip_add, List.filter_cons, ih]

theorem enumFrom_filter_map_snd {α β : Type} (q : α → Bool) (g : α → β)
    (k : Nat) (l : List α) :
    ((l.enumFrom k).filter fun p => q p.2).map (fun p => g p.2) =
      (l.filter q).map g := by
  induction l generalizing k with
  | nil => rfl
  | cons a l ih =>
    rw [List.enumFrom_cons, List.filter_cons, List.filter_cons]
    by_cases h : q a = true
    · simp only [h, if_true, List.map_cons, ih]
    · simp only [Bool.not_eq_true] at h
      simp only [h, Bool.false_eq_true, if_false, ih]

theorem zip_entries_added (attrOf : WStr → Option Attrs) (zp : WStr)
    (entries : List FileEntry) :
    (zip_entries true attrOf zp entries).added =
      (entries.filter (zip_add attrOf)).map fun e => (e.full, e.rel) := by
  rw [zip_entries]
  simp only [if_true]
  rw [zip_loop_snd, List.enum_eq_enumFrom]
  exact enumFrom_filter_map_snd (zip_add attrOf) (fun e => (e.full, e.rel)) 0 entries

theorem valid_name_spec {n : WStr} (h : valid_name n = true) :
    n ≠ [] ∧ bslash ∉ n ∧ '/' ∉ n ∧ ':' ∉ n := by
  rw [valid_name, Bool.and_eq_true] at h
  obtain ⟨h1, h2⟩ := h
  rw [List.all_eq_true] at h2
  refine ⟨by simpa using h1, ?_, ?_, ?_⟩ <;> intro hm <;>
    have hx := h2 _ hm <;> simp_all

theorem zip_add_collected (attrOf : WStr → Option Attrs) (curr name rel : WStr)
    (hid sys : Bool) (hbn : bslash ∉ name)
    (hattr : attrOf (join1 curr name) = some ⟨hid, sys, false⟩)
    (hhs : (hid || sys) = false) (hdi : icase_eq name desktop_ini = false) :
    zip_add attrOf ⟨join1 curr name, rel⟩ = true := by
  rw [zip_add, zip_keep]
  simp only [zip_name_skip, last_basename_join _ _ hbn, hattr, attr_hidden_sys,
    attr_dir, hhs, hdi]
  rfl

theorem zip_add_dir_false (attrOf : WStr → Option Attrs) (full rel : WStr)
    (hid sys : Bool) (hattr : attrOf full = some ⟨hid, sys, true⟩) :
    zip_add attrOf ⟨full, rel⟩ = false := by
  rw [zip_add]
  simp [attr_dir, hattr]

theorem collect_filter_zip_add (attrOf : WStr → Option Attrs) (base : WStr)
    (f : FSForest) :
    ∀ (curr : WStr), valid_names f = true →
      (∀ pa ∈ forest_attrs curr f, attrOf pa.1 = some pa.2) →
      ((collect_entries base curr f).filter (zip_add attrOf)).map (·.rel) =
        regular_rel_paths base curr f := by
  induction f with
  | nil => intro curr _ _; rfl
  | fileCons name hid sys rest ih =>
    intro curr hv hc
    rw [valid_names, Bool.and_eq_true] at hv
    obtain ⟨hvn, hvr⟩ := hv
    have hcr : ∀ pa ∈ forest_attrs curr rest, attrOf pa.1 = some pa.2 :=
      fun pa hpa => hc pa (by rw [forest_attrs]; exact List.mem_cons_of_mem _ hpa)
    rw [collect_entries_fileCons, regular_rel_paths]
    by_cases hp : path_filter_include name ⟨hid, sys, false⟩ = true
    · obtain ⟨_, hhs, hdi⟩ := (path_filter_include_iff _ _).mp hp
      have hattr : attrOf (join1 curr name) = some ⟨hid, sys, false⟩ :=
        hc _ (by rw [forest_attrs]; exact List.mem_cons_self _ _)
      rw [if_pos hp, if_pos hp, List.filter_cons,
        if_pos (zip_add_collected attrOf curr name _ hid sys
          (valid_name_spec hvn).2.1 hattr hhs hdi),
        List.map_cons, ih curr hvr hcr]
    · rw [if_neg hp, if_neg hp]
      exact ih curr hvr hcr
  | dirCons name hid sys children rest ihc ihr =>
    intro curr hv hc
    rw [valid_names, Bool.and_eq_true, Bool.and_eq_true] at hv
    obtain ⟨⟨hvn, hvc⟩, hvr⟩ := hv
    have hcc : ∀ pa ∈ forest_attrs (join1 curr name) children,
        attrOf pa.1 = some pa.2 :=
      fun pa hpa => hc pa (by
        rw [forest_attrs]
        exact List.mem_cons_of_mem _ (List.mem_append_left _ hpa))
    have hcr : ∀ pa ∈ forest_attrs curr rest, attrOf pa.1 = some pa.2 :=
      fun pa hpa => hc pa (by
        rw [forest_attrs]
        exact List.mem_cons_of_mem _ (List.mem_append_right _ hpa))
    rw [collect_entries_dirCons, regular_rel_paths]
    by_cases hp : path_filter_include name ⟨hid, sys, true⟩ = true
    · have hattr : attrOf (join1 curr name) = some ⟨hid, sys, true⟩ :=
        hc _ (by rw [forest_attrs]; exact List.mem_cons_self _ _)
      rw [if_pos hp, if_pos hp, List.filter_cons,
        if_neg (by rw [zip_add_dir_false attrOf _ _ hid sys hattr]; exact
          Bool.false_ne_true),
        List.filter_append, List.map_append,
        ihc (join1 curr name) hvc hcc, ihr curr hvr hcr]
    · rw [if_neg hp, if_neg hp]
      exact ihr curr hvr hcr

/-- C1 counterexample: on the tree `T` holding the visible directory `d` with
the visible file `d\f`, `collect_entries` emits the directory `d` itself as a
standalone entry (with directory attributes), so the collector does not emit
entries only for regular files: its output has two entries while the
non-excluded regular files' relative paths are just `[d\f]`. -/
theorem collect_emits_directory_entry_cex :
    ex_entries = [⟨"T\\d".data, "d".data⟩, ⟨"T\\d\\f".data, "d\\f".data⟩] ∧
    ex_attr "T\\d".data = some ⟨false, false, true⟩ ∧
    regular_rel_paths ex_base ex_base ex_forest = ["d\\f".data] := by
  refine ⟨by decide, by decide, by decide⟩

/-- C1 (amended): `collect_entries` emits entries for directories as well,
but `zip_entries` skips directory entries at write time, so for every
directory tree (legal Windows names, write-time attributes agreeing with the
tree) the list of `archivePath` values actually added to an opened archive
equals the list of non-excluded regular files' paths relative to the
resolved target — in particular the two agree as sets and no directory-only
entry is ever written. -/
theorem zip_of_collect_writes_exactly_regular_files
    (attrOf : WStr → Option Attrs) (base zp : WStr) (f : FSForest)
    (hv : valid_names f = true)
    (hc : ∀ pa ∈ forest_attrs base f, attrOf pa.1 = some pa.2) :
    ((zip_entries true attrOf zp (collect_entries base base f)).added).map
        (·.2) = regular_rel_paths base base f := by
  rw [zip_entries_added, List.map_map]
  simpa [Function.comp] using collect_filter_zip_add attrOf base f base hv hc

/-- Witness for C1 at the concrete tree `ex_forest`. -/
theorem zip_of_collect_writes_exactly_regular_files_witness :
    valid_names ex_forest = true ∧
    ((zip_entries true ex_attr ex_out
        (collect_entries ex_base ex_base ex_forest)).added).map (·.2) =
      regular_rel_paths ex_base ex_base ex_forest :=
  ⟨by decide, zip_of_collect_writes_exactly_regular_files ex_attr ex_base
    ex_out ex_forest (by decide) (by decide)⟩

/-- C2: the exclusion filter is the ordered first-match-wins chain
`path_filter_include` (dot names, hidden/system, `desktop.ini`
case-insensitively); a child failing it is dropped by the walk without being
recorded or descended into, a child passing it is recorded, and at
archive-write time every entry actually added has passed the defensive
re-check, so no hidden/system file or `desktop.ini` ever has bytes written
into an archive. -/
theorem path_filter_applied_in_walk_and_write :
    (∀ (base curr name : WStr) (hid sys : Bool) (rest : FSForest),
      path_filter_include name ⟨hid, sys, false⟩ = false →
      collect_entries base curr (.fileCons name hid sys rest) =
        collect_entries base curr rest) ∧
    (∀ (base curr name : WStr) (hid sys : Bool) (children rest : FSForest),
      path_filter_include name ⟨hid, sys, true⟩ = false →
      collect_entries base curr (.dirCons name hid sys children rest) =
        collect_entries base curr rest) ∧
    (∀ (base curr name : WStr) (hid sys : Bool) (rest : FSForest),
      path_filter_include name ⟨hid, sys, false⟩ = true →
      collect_entries base curr (.fileCons name hid sys rest) =
        ⟨join1 curr name, rel_part base (join1 curr name) name⟩ ::
          collect_entries base curr rest) ∧
    (∀ (openOk : Bool) (attrOf : WStr → Option Attrs) (zp : WStr)
      (entries : List FileEntry) (pr : WStr × WStr),
      pr ∈ (zip_entries openOk attrOf zp entries).added →
      attr_hidden_sys (attrOf pr.1) = false ∧ zip_name_skip pr.1 = false) := by
  refine ⟨?_, ?_, ?_, ?_⟩
  · intro base curr name hid sys rest hp
    rw [collect_entries_fileCons, if_neg (by rw [hp]; exact Bool.false_ne_true)]
  · intro base curr name hid sys children rest hp
    rw [collect_entries_dirCons, if_neg (by rw [hp]; exact Bool.false_ne_true)]
  · intro base curr name hid sys rest hp
    rw [collect_entries_fileCons, if_pos hp]
  · intro openOk attrOf zp entries pr hpr
    match openOk with
    | false => simp [zip_entries] at hpr
    | true =>
      rw [zip_entries_added] at hpr
      obtain ⟨e, he, hpe⟩ := List.mem_map.mp hpr
      have hf := List.of_mem_filter he
      rw [zip_add, Bool.and_eq_true, zip_keep, Bool.and_eq_true] at hf
      obtain ⟨⟨h1, h2⟩, _⟩ := hf
      rw [← hpe]
      exact ⟨by simpa using h1, by simpa using h2⟩

/-- Witness for C2: a dot-named child is dropped by the walk on a concrete
forest, and a concretely written entry passes both write-time checks. -/
theorem path_filter_applied_in_walk_and_write_witness :
    (collect_entries ex_base ex_base (.fileCons dot_name false false .nil) =
      collect_entries ex_base ex_base .nil) ∧
    (attr_hidden_sys (ex_attr "T\\d\\f".data) = false ∧
      zip_name_skip "T\\d\\f".data = false) :=
  ⟨path_filter_applied_in_walk_and_write.1 ex_base ex_base dot_name false
      false .nil (by decide),
    path_filter_applied_in_walk_and_write.2.2.2 true ex_attr ex_out ex_entries
      ("T\\d\\f".data, "d\\f".data) (by decide)⟩

/-- C4 counterexample: the suffix the program strips is the localized
`" - Ярлык"`, not `" - Shortcut"`, so the spec's test vector fails: the
derived display name for `Photos - Shortcut.lnk` is `Photos - Shortcut`,
not `Photos`. -/
theorem display_name_shortcut_suffix_not_stripped_cex :
    derive_display_name "Photos - Shortcut.lnk".data =
      "Photos - Shortcut".data ∧
    derive_display_name "Photos - Shortcut.lnk".data ≠ "Photos".data := by
  exact ⟨by decide, by decide⟩

/-- C4 (amended): the derivation strips the final extension and then the
known localized suffix `" - Ярлык"` when it ends the remaining name: for any
non-empty stem `s`, the name `s ++ " - Ярлык.lnk"` derives to `s`; in
particular `Photos - Ярлык.lnk` derives to `Photos`, while
`Photos - Shortcut.lnk` keeps its unrecognized suffix. -/
theorem display_name_strips_ext_and_localized_suffix (s : WStr) (hs : s ≠ []) :
    derive_display_name (s ++ localized_suffix ++ '.' :: "lnk".data) = s ∧
    derive_display_name "Photos - Ярлык.lnk".data = "Photos".data ∧
    derive_display_name "Photos - Shortcut.lnk".data =
      "Photos - Shortcut".data := by
  refine ⟨?_, by decide, by decide⟩
  have hb : strip_last_ext (s ++ localized_suffix ++ '.' :: "lnk".data) =
      s ++ localized_suffix := by
    exact strip_last_ext_concat _ _ (by decide)
  have hpos : 0 < s.length := List.length_pos.mpr hs
  simp only [derive_display_name, hb, List.length_append, Nat.add_sub_cancel,
    List.drop_left, List.take_left]
  rw [if_pos ⟨by omega, trivial⟩]

/-- Witness for C4 at the stem `Photos`. -/
theorem display_name_strips_ext_and_localized_suffix_witness :
    "Photos".data ≠ ([] : WStr) ∧
    derive_display_name ("Photos".data ++ localized_suffix ++
      '.' :: "lnk".data) = "Photos".data :=
  ⟨by decide,
    (display_name_strips_ext_and_localized_suffix "Photos".data (by decide)).1⟩

theorem head_ne_bslash {a : WStr} (h : bslash ∉ a) : a.head? ≠ some bslash := by
  cases a with
  | nil => simp
  | cons x l =>
    simp only [List.head?_cons, Ne, Option.some.injEq]
    intro hx
    subst hx
    exact h (List.mem_cons_self _ _)

theorem good_rel_of_valid {n : WStr} (h : valid_name n = true) : good_rel n := by
  obtain ⟨h0, h1, h2, h3⟩ := valid_name_spec h
  exact ⟨h3, h2, h0, head_ne_bslash h1⟩

theorem good_rel_join {a b : WStr} (ha0 : a ≠ []) (ha1 : ':' ∉ a)
    (ha2 : '/' ∉ a) (ha3 : a.head? ≠ some bslash) (hb : good_rel b) :
    good_rel (join1 a b) := by
  obtain ⟨hb1, hb2, _, _⟩ := hb
  refine ⟨?_, ?_, by simp [join1], ?_⟩
  · intro hm
    rcases List.mem_append.mp hm with hm | hm
    · exact ha1 hm
    · rcases List.mem_cons.mp hm with hm | hm
      · exact absurd hm (by decide)
      · exact hb1 hm
  · intro hm
    rcases List.mem_append.mp hm with hm | hm
    · exact ha2 hm
    · rcases List.mem_cons.mp hm with hm | hm
      · exact absurd hm (by decide)
      · exact hb2 hm
  · cases a with
    | nil => exact absurd rfl ha0
    | cons x l => simpa [join1] using ha3

theorem rel_part_good (base curr name : WStr) (hg : good_curr base curr)
    (hvn : valid_name name = true) :
    good_rel (rel_part base (join1 curr name) name) ∧
      good_curr base (join1 curr name) := by
  rcases hg with h | ⟨r, hr, h⟩
  · rw [h]
    rw [show join1 base name = base ++ bslash :: name from rfl, rel_part_strip]
    exact ⟨good_rel_of_valid hvn, Or.inr ⟨name, good_rel_of_valid hvn, rfl⟩⟩
  · subst h
    have hj : join1 (base ++ bslash :: r) name =
        base ++ bslash :: join1 r name := by
      simp [join1]
    obtain ⟨hr1, hr2, hr0, hrh⟩ := hr
    have hgr : good_rel (join1 r name) :=
      good_rel_join hr0 hr1 hr2 hrh (good_rel_of_valid hvn)
    rw [hj, rel_part_strip]
    exact ⟨hgr, Or.inr ⟨join1 r name, hgr, rfl⟩⟩

theorem collect_good_rel (base : WStr) (f : FSForest) :
    ∀ curr, valid_names f = true → good_curr base curr →
      ∀ e ∈ collect_entries base curr f, good_rel e.rel := by
  induction f with
  | nil => intro curr _ _ e he; simp [collect_entries] at he
  | fileCons name hid sys rest ih =>
    intro curr hv hg e he
    rw [valid_names, Bool.and_eq_true] at hv
    obtain ⟨hvn, hvr⟩ := hv
    rw [collect_entries_fileCons] at he
    by_cases hp : path_filter_include name ⟨hid, sys, false⟩ = true
    · rw [if_pos hp] at he
      rcases List.mem_cons.mp he with h | h
      · subst h
        exact (rel_part_good base curr name hg hvn).1
      · exact ih curr hvr hg e h
    · rw [if_neg hp] at he
      exact ih curr hvr hg e he
  | dirCons name hid sys children rest ihc ihr =>
    intro curr hv hg e he
    rw [valid_names, Bool.and_eq_true, Bool.and_eq_true] at hv
    obtain ⟨⟨hvn, hvc⟩, hvr⟩ := hv
    rw [collect_entries_dirCons] at he
    by_cases hp : path_filter_include name ⟨hid, sys, true⟩ = true
    · rw [if_pos hp] at he
      rcases List.mem_cons.mp he with h | h
      · subst h
        exact (rel_part_good base curr name hg hvn).1
      · rcases List.mem_append.mp h with h | h
        · exact ihc (join1 curr name) hvc
            (rel_part_good base curr name hg hvn).2 e h
        · exact ihr curr hvr hg e h
    · rw [if_neg hp] at he
      exact ihr curr hvr hg e he

theorem to_archive_name_good {r : WStr} (h : good_rel r) :
    bslash ∉ to_archive_name r ∧ ':' ∉ to_archive_name r ∧
      (to_archive_name r).head? ≠ some '/' := by
  obtain ⟨h1, h2, h3, h4⟩ := h
  refine ⟨?_, ?_, ?_⟩
  · intro hm
    obtain ⟨c, _, he⟩ := List.mem_map.mp hm
    by_cases hcb : c = bslash
    · rw [if_pos hcb] at he
      exact absurd he (by decide)
    · rw [if_neg hcb] at he
      exact hcb he
  · intro hm
    obtain ⟨c, hc, he⟩ := List.mem_map.mp hm
    by_cases hcb : c = bslash
    · rw [if_pos hcb] at he
      exact absurd he (by decide)
    · rw [if_neg hcb] at he
      exact h1 (he ▸ hc)
  · cases r with
    | nil => exact absurd rfl h3
    | cons x l =>
      simp only [to_archive_name, List.map_cons, List.head?_cons, Ne,
        Option.some.injEq]
      by_cases hcb : x = bslash
      · exact absurd (by simp [List.head?_cons, hcb]) h4
      · rw [if_neg hcb]
        intro hx
        exact h2 (hx ▸ List.mem_cons_self x l)

/-- C3 counterexample: a shortcut file named exactly `.lnk` (matched by the
`*.lnk` pattern) derives an empty display name, and the single-archive-mode
rewrite then produces an `archivePath` that begins with a path separator —
whose in-archive form begins with `/`. -/
theorem single_mode_leading_separator_cex :
    (single_entries env_dotlnk ex_src).map (·.rel) = [bslash :: "x.txt".data] ∧
    (bslash :: "x.txt".data).head? = some bslash ∧
    (to_archive_name (bslash :: "x.txt".data)).head? = some '/' := by
  exact ⟨by decide, by decide, by decide⟩

/-- C3 (amended): for trees with legal Windows name components, every Entry
produced by `collect_entries` — and, provided every shortcut's derived
display name is non-empty, every Entry rewritten by the single-archive-mode
merge — has an `archivePath` free of drive-letter colons and forward
slashes, non-empty, with no leading separator, and its in-archive form under
the backend's forward-slash normalization contains no backslash, no colon,
and no leading `/`. (A shortcut named exactly `.lnk` yields an empty display
name and violates the leading-separator part.) -/
theorem archive_paths_wellformed :
    (∀ (base : WStr) (f : FSForest), valid_names f = true →
      ∀ e ∈ collect_entries base base f,
        good_rel e.rel ∧ bslash ∉ to_archive_name e.rel ∧
          ':' ∉ to_archive_name e.rel ∧
          (to_archive_name e.rel).head? ≠ some '/') ∧
    (∀ (env : Env) (src : WStr),
      (∀ f ∈ env.lnkFiles, valid_name f = true ∧ derive_display_name f ≠ []) →
      (∀ t, valid_names (env.forestOf t) = true) →
      ∀ e ∈ single_entries env src,
        good_rel e.rel ∧ bslash ∉ to_archive_name e.rel ∧
          ':' ∉ to_archive_name e.rel ∧
          (to_archive_name e.rel).head? ≠ some '/') := by
  constructor
  · intro base f hv e he
    have hg := collect_good_rel base f base hv (Or.inl rfl) e he
    exact ⟨hg, to_archive_name_good hg⟩
  · intro env src hlnk hfor e he
    obtain ⟨f, hf, hef⟩ := List.mem_flatMap.mp he
    obtain ⟨hvf, hdn⟩ := hlnk f hf
    rcases hres : env.resolve (join1 src f) with _ | tgt
    · rw [hres] at hef
      simp at hef
    · rw [hres] at hef
      obtain ⟨e0, he0, hee⟩ := List.mem_map.mp hef
      have hg0 := collect_good_rel tgt (env.forestOf tgt) tgt (hfor tgt)
        (Or.inl rfl) e0 he0
      obtain ⟨_, hnb, hns, hnc⟩ := valid_name_spec hvf
      have hgood : good_rel (join1 (derive_display_name f) e0.rel) :=
        good_rel_join hdn
          (fun hm => hnc (mem_of_mem_derive hm))
          (fun hm => hns (mem_of_mem_derive hm))
          (head_ne_bslash fun hm => hnb (mem_of_mem_derive hm))
          hg0
      rw [← hee]
      exact ⟨hgood, to_archive_name_good hgood⟩

/-- Witness for C3 at the file entry of the concrete tree `ex_forest`. -/
theorem archive_paths_wellformed_witness :
    good_rel (FileEntry.rel ⟨"T\\d\\f".data, "d\\f".data⟩) ∧
    bslash ∉ to_archive_name (FileEntry.rel ⟨"T\\d\\f".data, "d\\f".data⟩) ∧
    ':' ∉ to_archive_name (FileEntry.rel ⟨"T\\d\\f".data, "d\\f".data⟩) ∧
    (to_archive_name
      (FileEntry.rel ⟨"T\\d\\f".data, "d\\f".data⟩)).head? ≠ some '/' :=
  archive_paths_wellformed.1 ex_base ex_forest (by decide)
    ⟨"T\\d\\f".data, "d\\f".data⟩ (by decide)

theorem filterMap_length_filter {α β : Type} (g : α → Option β) (l : List α) :
    (l.filterMap g).length = (l.filter fun a => (g a).isSome).length := by
  induction l with
  | nil => rfl
  | cons a l ih =>
    rw [List.filterMap_cons, List.filter_cons]
    cases hg : g a <;> simp [hg, ih]

/-- C5: in single-archive mode every collected Entry is merged with its
`archivePath` rewritten to `displayName\originalRelativePath`; the merged
list is permutation-invariant in the shortcut enumeration order (with the
resolver and the target trees fixed), hence its entry set is
order-independent; and on the concrete pair `A.lnk -> dirA{x.txt}`,
`B.lnk -> dirB{y.txt}` both enumeration orders produce exactly the
in-archive names `A/x.txt` and `B/y.txt`. -/
theorem single_mode_prefixed_entry_set_order_invariant
    (env₁ env₂ : Env) (src : WStr)
    (hperm : env₁.lnkFiles.Perm env₂.lnkFiles)
    (hres : env₁.resolve = env₂.resolve)
    (hfor : env₁.forestOf = env₂.forestOf) :
    (∀ (f tgt : WStr), f ∈ env₁.lnkFiles →
      env₁.resolve (join1 src f) = some tgt →
      ∀ e ∈ collect_entries tgt tgt (env₁.forestOf tgt),
        prefixed (derive_display_name f) e ∈ single_entries env₁ src) ∧
    (single_entries env₁ src).Perm (single_entries env₂ src) ∧
    (∀ p, p ∈ (single_entries env₁ src).map (fun e => to_archive_name e.rel) ↔
      p ∈ (single_entries env₂ src).map (fun e => to_archive_name e.rel)) ∧
    ((single_entries env_ab ex_src).map (fun e => to_archive_name e.rel) =
      ["A/x.txt".data, "B/y.txt".data]) ∧
    ((single_entries env_ba ex_src).map (fun e => to_archive_name e.rel) =
      ["B/y.txt".data, "A/x.txt".data]) := by
  have hp2 : (single_entries env₁ src).Perm (single_entries env₂ src) := by
    rw [single_entries, single_entries]
    simp only [← hres, ← hfor]
    exact hperm.flatMap_right _
  refine ⟨?_, hp2, fun p => (hp2.map _).mem_iff, by decide, by decide⟩
  intro f tgt hf hres1 e he
  exact List.mem_flatMap.mpr
    ⟨f, hf, by rw [hres1]; exact List.mem_map_of_mem _ he⟩

/-- Witness for C5 at the concrete two-shortcut environments. -/
theorem single_mode_prefixed_entry_set_order_invariant_witness :
    (single_entries env_ab ex_src).Perm (single_entries env_ba ex_src) :=
  (single_mode_prefixed_entry_set_order_invariant env_ab env_ba ex_src
    (by decide) rfl rfl).2.1

/-- C6: split mode produces exactly one job per shortcut that resolves
successfully: the job list is as long as the sublist of resolvable
shortcuts; every resolvable shortcut's job is present, named
`<outputDir>\<displayName>.zip`, holds that target's entries without any
display-name prefix, and its archive is finalized whenever its path opens;
and a shortcut whose resolution fails contributes no job while the
remaining shortcuts are still processed. -/
theorem split_mode_one_job_per_resolvable_shortcut
    (env : Env) (src out : WStr) :
    ((split_jobs env src out).length =
      (env.lnkFiles.filter fun f =>
        (env.resolve (join1 src f)).isSome).length) ∧
    (∀ (f tgt : WStr), f ∈ env.lnkFiles →
      env.resolve (join1 src f) = some tgt →
      job_for env out f tgt ∈ split_jobs env src out ∧
      (job_for env out f tgt).zipPath =
        join1 out (derive_display_name f) ++ zip_ext ∧
      (job_for env out f tgt).entries =
        collect_entries tgt tgt (env.forestOf tgt) ∧
      (env.openOk (join1 out (derive_display_name f) ++ zip_ext) = true →
        (job_for env out f tgt).result.finalized = true)) ∧
    (∀ (f : WStr) (rest : List WStr), env.lnkFiles = f :: rest →
      env.resolve (join1 src f) = none →
      split_jobs env src out = split_jobs (with_lnks env rest) src out) := by
  refine ⟨?_, ?_, ?_⟩
  · rw [split_jobs, filterMap_length_filter]
    congr 1
    apply List.filter_congr
    intro f _
    cases hg : env.resolve (join1 src f) <;> simp [hg]
  · intro f tgt hf hres1
    refine ⟨List.mem_filterMap.mpr ⟨f, hf, by rw [hres1]⟩, rfl, rfl, ?_⟩
    intro hopen
    simp [job_for, zip_entries, hopen]
  · intro f rest hl hres1
    rw [split_jobs, hl, List.filterMap_cons, hres1]
    rfl

/-- Witness for C6: the job for `A.lnk` is among the jobs of the concrete
two-shortcut environment. -/
theorem split_mode_one_job_per_resolvable_shortcut_witness :
    job_for env_ab ex_out lnkA dirA ∈ split_jobs env_ab ex_src ex_out :=
  ((split_mode_one_job_per_resolvable_shortcut env_ab ex_src ex_out).2.1
    lnkA dirA (by decide) (by decide)).1

/-- C7 counterexample: in single-archive mode with a resolvable shortcut and
an output file that cannot be opened, `zip_entries` abandons the archive
(nothing opened, nothing written, nothing finalized) — yet `wmain` still
exits with code 0, not the non-zero exit the claim requires for an
unrecoverable output-path failure. -/
theorem single_mode_open_failure_exit_zero_cex :
    (wmain env_openfail argv_single).exitCode = 0 ∧
    (wmain env_openfail argv_single).singleResult =
      some ⟨false, [], [], none, false⟩ := by
  exact ⟨by decide, by decide⟩

/-- C7 (amended): the exit code is always 0 or 1, and equals 1 exactly on a
usage error, on split-mode output-directory creation failure, on a
split-mode source folder without `*.lnk` files, or on an empty single-mode
merged entry list. A single-mode archive-open failure abandons the archive
but the process still exits 0; in split mode every job's archive is opened
independently of the others, so an open failure touches only that job. -/
theorem exit_codes_characterization (env : Env) (argv : List WStr) :
    ((wmain env argv).exitCode = 0 ∨ (wmain env argv).exitCode = 1) ∧
    (((is_split_invocation argv = false ∧ argv.length ≠ 3) ∨
        (is_split_invocation argv = true ∧ argv.length ≠ 4)) →
      wmain env argv = ⟨1, none, []⟩) ∧
    (is_split_invocation argv = true → argv.length = 4 →
      env.mkdirOk = false → wmain env argv = ⟨1, none, []⟩) ∧
    (is_split_invocation argv = true → argv.length = 4 →
      env.mkdirOk = true → env.lnkFiles = [] →
      wmain env argv = ⟨1, none, []⟩) ∧
    (is_split_invocation argv = true → argv.length = 4 →
      env.mkdirOk = true → env.lnkFiles ≠ [] →
      wmain env argv = ⟨0, none,
        split_jobs env ((argv.drop 2).headD []) ((argv.drop 3).headD [])⟩) ∧
    (is_split_invocation argv = false → argv.length = 3 →
      single_entries env ((argv.drop 1).headD []) = [] →
      wmain env argv = ⟨1, none, []⟩) ∧
    (is_split_invocation argv = false → argv.length = 3 →
      single_entries env ((argv.drop 1).headD []) ≠ [] →
      wmain env argv = ⟨0,
        some (zip_entries (env.openOk ((argv.drop 2).headD [])) env.attrOf
          ((argv.drop 2).headD [])
          (single_entries env ((argv.drop 1).headD []))), []⟩) := by
  refine ⟨?_, ?_, ?_, ?_, ?_, ?_, ?_⟩
  · simp only [wmain]
    split
    · exact Or.inr rfl
    · split
      · split
        · exact Or.inr rfl
        · split
          · exact Or.inr rfl
          · exact Or.inl rfl
      · split
        · exact Or.inr rfl
        · exact Or.inl rfl
  · intro h
    simp only [wmain, if_pos h]
  · intro hsp hlen hmk
    simp [wmain, hsp, hlen, hmk]
  · intro hsp hlen hmk hlnk
    simp [wmain, hsp, hlen, hmk, hlnk]
  · intro hsp hlen hmk hlnk
    simp [wmain, hsp, hlen, hmk, hlnk]
  · intro hsp hlen hes
    simp [wmain, hsp, hlen]
    have h1 : 1 < argv.length := by omega
    simpa [List.getElem?_eq_getElem h1] using hes
  · intro hsp hlen hes
    simp [wmain, hsp, hlen]
    have h1 : 1 < argv.length := by omega
    simpa [List.getElem?_eq_getElem h1] using hes

/-- Witness for C7: the concrete single-mode run whose output cannot be
opened still exits 0 with the abandoned archive recorded. -/
theorem exit_codes_characterization_witness :
    wmain env_openfail argv_single = ⟨0,
      some (zip_entries (env_openfail.openOk ((argv_single.drop 2).headD []))
        env_openfail.attrOf ((argv_single.drop 2).headD [])
        (single_entries env_openfail ((argv_single.drop 1).headD []))), []⟩ :=
  (exit_codes_characterization env_openfail argv_single).2.2.2.2.2.2
    (by decide) (by decide) (by decide)

/-- C8: every progress line carries percentage `i * 100 / n` — natural
(floor) division, evaluated only for indices `i < n`, so never with
`n = 0` — and on an empty entry list with a successful open no progress
line is printed, the completion line still reports count 0, and the writer
is closed, leaving an empty valid archive rather than an error. -/
theorem progress_percentage_floor_and_empty (openOk : Bool)
    (attrOf : WStr → Option Attrs) (zp : WStr) (entries : List FileEntry) :
    (∀ pr ∈ (zip_entries openOk attrOf zp entries).progress,
      ∃ i e, i < entries.length ∧ entries[i]? = some e ∧
        pr = (i * 100 / entries.length, e.rel)) ∧
    (openOk = true → entries = [] →
      (zip_entries openOk attrOf zp entries).progress = [] ∧
      (zip_entries openOk attrOf zp entries).summary = some (0, zp) ∧
      (zip_entries openOk attrOf zp entries).finalized = true) := by
  constructor
  · intro pr hpr
    match openOk with
    | false => simp [zip_entries] at hpr
    | true =>
      have hprog : (zip_entries true attrOf zp entries).progress =
          (entries.enum.filter fun p => zip_keep attrOf p.2).map
            fun p => (p.1 * 100 / entries.length, p.2.rel) := by
        rw [zip_entries]
        simp only [if_true]
        exact zip_loop_fst attrOf entries.length entries.enum
      rw [hprog] at hpr
      obtain ⟨p, hp, hpe⟩ := List.mem_map.mp hpr
      have hmem : p ∈ entries.enum := (List.mem_filter.mp hp).1
      have hgi : entries[p.1]? = some p.2 :=
        List.mem_enum_iff_getElem?.mp hmem
      have hlt : p.1 < entries.length := by
        by_contra hle
        rw [List.getElem?_eq_none (Nat.le_of_not_lt hle)] at hgi
        exact Option.noConfusion hgi
      exact ⟨p.1, p.2, hlt, hgi, hpe.symm⟩
  · intro ho he
    subst ho
    subst he
    exact ⟨rfl, rfl, rfl⟩

/-- Witness for C8: the empty run on an opened archive. -/
theorem progress_percentage_floor_and_empty_witness :
    (zip_entries true ex_attr ex_out []).progress = [] ∧
    (zip_entries true ex_attr ex_out []).summary = some (0, ex_out) ∧
    (zip_entries true ex_attr ex_out []).finalized = true :=
  (progress_percentage_floor_and_empty true ex_attr ex_out []).2 rfl rfl

/-- C9: the completion line reports the raw input entry count, never the
number of entries actually written, and the written count never exceeds it;
on the concrete collected tree (one visible directory plus one file) the
directory entry receives a progress line, the reported count is 2, but only
one entry is added — strictly fewer than reported. -/
theorem summary_count_equals_input_length (openOk : Bool)
    (attrOf : WStr → Option Attrs) (zp : WStr) (entries : List FileEntry)
    (h : openOk = true) :
    (zip_entries openOk attrOf zp entries).summary =
      some (entries.length, zp) ∧
    (zip_entries openOk attrOf zp entries).added.length ≤ entries.length ∧
    ((zip_entries true ex_attr ex_out ex_entries).summary =
        some (2, ex_out) ∧
      (zip_entries true ex_attr ex_out ex_entries).added.length = 1 ∧
      (0, "d".data) ∈ (zip_entries true ex_attr ex_out ex_entries).progress) := by
  subst h
  refine ⟨rfl, ?_, by decide, by decide, by decide⟩
  rw [zip_entries_added, List.length_map]
  exact List.length_filter_le _ _

/-- Witness for C9 at the concrete collected entries. -/
theorem summary_count_equals_input_length_witness :
    (zip_entries true ex_attr ex_out ex_entries).summary =
      some (ex_entries.length, ex_out) :=
  (summary_count_equals_input_length true ex_attr ex_out ex_entries rfl).1

/-- C10: two distinct shortcuts with equal derived display names map their
split-mode jobs to one output path; because the backend truncates on open,
the job processed later determines the surviving file, and the run produces
strictly fewer distinct archive paths than resolvable shortcuts. -/
theorem duplicate_display_names_overwrite (env : Env)
    (src out f₁ f₂ t₁ t₂ : WStr)
    (hl : env.lnkFiles = [f₁, f₂]) (_hne : f₁ ≠ f₂)
    (h₁ : env.resolve (join1 src f₁) = some t₁)
    (h₂ : env.resolve (join1 src f₂) = some t₂)
    (hn : derive_display_name f₁ = derive_display_name f₂) :
    split_jobs env src out =
      [job_for env out f₁ t₁, job_for env out f₂ t₂] ∧
    (job_for env out f₁ t₁).zipPath = (job_for env out f₂ t₂).zipPath ∧
    final_archive_at (split_jobs env src out)
        ((job_for env out f₁ t₁).zipPath) =
      some (job_for env out f₂ t₂).result ∧
    (produced_paths (split_jobs env src out)).length <
      (split_jobs env src out).length := by
  have hjobs : split_jobs env src out =
      [job_for env out f₁ t₁, job_for env out f₂ t₂] := by
    rw [split_jobs, hl]
    simp [List.filterMap_cons, h₁, h₂]
  have hpath : (job_for env out f₁ t₁).zipPath =
      (job_for env out f₂ t₂).zipPath := by
    show join1 out (derive_display_name f₁) ++ zip_ext =
      join1 out (derive_display_name f₂) ++ zip_ext
    rw [hn]
  refine ⟨hjobs, hpath, ?_, ?_⟩
  · rw [hjobs, final_archive_at, hpath]
    simp
  · rw [hjobs, produced_paths, List.map_cons, List.map_cons, List.map_nil,
      hpath, List.dedup_cons_of_mem (by simp)]
    simp

/-- Witness for C10 at `A.lnk` and `A - Ярлык.lnk`, both deriving `A`. -/
theorem duplicate_display_names_overwrite_witness :
    final_archive_at (split_jobs env_dup ex_src ex_out)
        ((job_for env_dup ex_out lnkA dirA).zipPath) =
      some (job_for env_dup ex_out lnkA2 dirB).result ∧
    (produced_paths (split_jobs env_dup ex_src ex_out)).length <
      (split_jobs env_dup ex_src ex_out).length := by
  have h := duplicate_display_names_overwrite env_dup ex_src ex_out lnkA lnkA2
    dirA dirB rfl (by decide) (by decide) (by decide) (by decide)
  exact ⟨h.2.2.1, h.2.2.2⟩

end Backup
